import Mathlib

/-!
Verification of the virtual-file projection and formatting core of a
composite-document (Vue SFC) language-tooling layer.

Strings of the TypeScript source are embedded as `List Char` so that the
JavaScript string primitives (`split`, `replace`, `trimStart`, `indexOf`,
regular-expression matching for the custom-block name pattern) can be
modelled as executable structural recursions.  Document positions
(`TextDocument.positionAt`) are modelled as (line, character) pairs
computed from the character list; ranges that the source code never
inspects are carried as opaque `Nat × Nat` pairs.
-/

/-- Strings of the embedded program: JavaScript strings as character lists. -/
abbrev Str := List Char

/-- Leading whitespace of a string, as computed by
`s.substr(0, s.length - s.trimStart().length)` in the source. -/
def leadingWS (s : Str) : Str := s.takeWhile Char.isWhitespace

/-- The part of `s` after its last newline (the tail of the last line). -/
def afterLastNl (s : Str) : Str :=
  (s.reverse.takeWhile (fun c => !(c == '\n'))).reverse

/-- `TextDocument.positionAt`: offset to (line, character). -/
def positionAt (doc : Str) (off : Nat) : Nat × Nat :=
  ((doc.take off).count '\n', (afterLastNl (doc.take off)).length)

/-- JavaScript `String.prototype.replace` with a plain-string pattern:
replaces the first occurrence only (the replacement strings used by the
source contain no `$` patterns). -/
def replaceFirst : Str → Str → Str → Str
  | [], pat, rep => if pat = [] then rep else []
  | c :: rest, pat, rep =>
    if pat.isPrefixOf (c :: rest) then rep ++ (c :: rest).drop pat.length
    else c :: replaceFirst rest pat rep

/-- JavaScript `text.split('\n')`. -/
def splitOnNl : Str → List Str
  | [] => [[]]
  | c :: rest =>
    match splitOnNl rest with
    | [] => [[c]]
    | l :: ls => if c = '\n' then [] :: l :: ls else (c :: l) :: ls

/-- JavaScript `lines.join('\n')`. -/
def joinNl : List Str → Str
  | [] => []
  | [l] => l
  | l :: rest => l ++ '\n' :: joinNl rest

/-- A text edit whose range is a pair of (line, character) positions; the
orchestrator never inspects the ranges of the per-pass edits it applies. -/
structure TextEdit where
  newText : Str
  rangeStart : Nat × Nat
  rangeEnd : Nat × Nat
deriving DecidableEq

/-! ## Formatting orchestrator (`register` in the formatting module)

The per-pass edit providers and `TextDocument.applyEdits` are the external
collaborators of the orchestrator; they are abstracted as an oracle record.
Each provider receives the current document text (the orchestrator calls
`sourceFile.update(newDocument)` before the next pass). -/

structure FormatOracle where
  pugEdits : Str → List TextEdit
  htmlEdits : Str → List TextEdit
  tsEdits : Str → List TextEdit
  cssEdits : Str → List TextEdit
  indentEdits : Str → List TextEdit
  applyEdits : Str → List TextEdit → Str

/-- The document text after the three batches of the orchestrator
(pug+html pass, ts+css pass, unconditional indentation-repair apply). -/
def formatFinalText (o : FormatOracle) (doc : Str) : Str :=
  let d1 :=
    if (o.pugEdits doc).length + (o.htmlEdits doc).length > 0 then
      o.applyEdits doc (o.pugEdits doc ++ o.htmlEdits doc)
    else doc
  let d2 :=
    if (o.tsEdits d1).length + (o.cssEdits d1).length > 0 then
      o.applyEdits d1 (o.tsEdits d1 ++ o.cssEdits d1)
    else d1
  o.applyEdits d2 (o.indentEdits d2)

/-- The value returned to the caller: `undefined` (no edit) when the final
text equals the input text, otherwise a single whole-document replace. -/
def registerFormat (o : FormatOracle) (doc : Str) : Option (List TextEdit) :=
  if formatFinalText o doc = doc then none
  else some [⟨formatFinalText o doc, positionAt doc 0, positionAt doc doc.length⟩]

/-- Claim C4: for every input document the orchestrator returns no edit
when the text after all passes equals the original text, and otherwise
returns exactly one edit spanning the whole original document (offset 0 to
the original length) whose new text is the full final text. -/
theorem registerFormat_whole_document (o : FormatOracle) (doc : Str) :
    (formatFinalText o doc = doc → registerFormat o doc = none) ∧
    (formatFinalText o doc ≠ doc →
      registerFormat o doc =
        some [⟨formatFinalText o doc, positionAt doc 0, positionAt doc doc.length⟩]) := by
  constructor <;> intro h <;> simp [registerFormat, h]

/-- An oracle whose indent pass rewrites the whole document to "x". -/
def formatOracleX : FormatOracle :=
  ⟨fun _ => [], fun _ => [], fun _ => [], fun _ => [], fun _ => [],
   fun _ _ => ['x']⟩

theorem registerFormat_whole_document_witness :
    registerFormat formatOracleX ['y'] =
      some [⟨['x'], (0, 0), (0, 1)⟩] := by
  have h := (registerFormat_whole_document formatOracleX ['y']).2 (by decide)
  exact h.trans (by decide)

/-! ## Template diagnostics (`provideDiagnostics` in the vue-template plugin)

A template compiler error carries an optional source location
(`error.loc`, with `start.offset` and `end.offset`). -/

structure CompilerError where
  loc : Option (Nat × Nat)
  code : Nat
  message : Str
deriving DecidableEq

structure TemplateBlock where
  errors : List CompilerError
  warnings : List CompilerError
deriving DecidableEq

structure Diagnostic where
  rangeStart : Nat × Nat
  rangeEnd : Nat × Nat
  severity : Nat
  code : Nat
  source : Str
  message : Str
deriving DecidableEq

/-- `onCompilerError`: missing location offsets default to 0
(`error.loc?.start.offset ?? 0`). -/
def onCompilerError (doc : Str) (severity : Nat) (e : CompilerError) : Diagnostic :=
  let s := match e.loc with | some l => l.1 | none => 0
  let t := match e.loc with | some l => l.2 | none => 0
  ⟨positionAt doc s, positionAt doc t, severity, e.code, "vue".toList, e.message⟩

/-- The diagnostics provider: the backend result, then the converted
template compiler errors (severity 1) and warnings (severity 2). -/
def provideDiagnostics (doc : Str) (originalResult : List Diagnostic)
    (template : Option TemplateBlock) : List Diagnostic :=
  match template with
  | none => originalResult
  | some t =>
    originalResult ++ t.errors.map (onCompilerError doc 1)
      ++ t.warnings.map (onCompilerError doc 2)

/-- Claim C8: template compiler errors and warnings with an absent location
become diagnostics with a zero-length range at the position of offset 0,
errors with severity Error (1) and warnings with severity Warning (2), all
with source "vue", appended after the backend's own diagnostics. -/
theorem provideDiagnostics_no_location (doc : Str) (originalResult : List Diagnostic)
    (t : TemplateBlock) :
    provideDiagnostics doc originalResult (some t) =
      originalResult ++ t.errors.map (onCompilerError doc 1)
        ++ t.warnings.map (onCompilerError doc 2) ∧
    (∀ e : CompilerError, e.loc = none → ∀ severity,
      onCompilerError doc severity e =
        ⟨positionAt doc 0, positionAt doc 0, severity, e.code, "vue".toList, e.message⟩) := by
  refine ⟨rfl, fun e he severity => ?_⟩
  simp [onCompilerError, he]

theorem provideDiagnostics_no_location_witness :
    provideDiagnostics [] [] (some ⟨[⟨none, 7, "bad".toList⟩], []⟩) =
      [⟨(0, 0), (0, 0), 1, 7, "vue".toList, "bad".toList⟩] := by
  have h := provideDiagnostics_no_location [] [] ⟨[⟨none, 7, "bad".toList⟩], []⟩
  rw [h.1]
  decide

/-! ## JavaScript `split` / `join` and the internal item id encoding

The source calls `key.split('::')` and `str.split(',')`; both are modelled
as structural recursions with JavaScript semantics (`"".split(s) = [""]`,
non-overlapping matches scanned from the left). -/

/-- Prepend a character to the first piece of a split result. -/
def consHead (c : Char) : List Str → List Str
  | [] => [[c]]
  | p :: ps => (c :: p) :: ps

/-- JavaScript `s.split('::')`. -/
def splitColons : Str → List Str
  | ':' :: ':' :: rest => [] :: splitColons rest
  | c :: rest => consHead c (splitColons rest)
  | [] => [[]]

/-- JavaScript `s.split(',')`. -/
def splitComma : Str → List Str
  | [] => [[]]
  | c :: rest => if c = ',' then [] :: splitComma rest else consHead c (splitComma rest)

/-- Whether `s` contains `"::"` as a contiguous substring. -/
def hasColons : Str → Bool
  | [] => false
  | c :: rest => (decide (c = ':') && decide (rest.head? = some ':')) || hasColons rest

/-- JavaScript `parts.join(sep)`. -/
def joinWith (sep : Str) : List Str → Str
  | [] => []
  | [a] => a
  | a :: rest => a ++ sep ++ joinWith sep rest

/-- The two internal item id types used by the vue-template plugin. -/
inductive InternalItemType
  | componentEvent
  | componentProp
deriving DecidableEq

def internalItemTypeStr : InternalItemType → Str
  | .componentEvent => "componentEvent".toList
  | .componentProp => "componentProp".toList

/-- `createInternalItemId`: `'__VLS_::' + type + '::' + args.join(',')`. -/
def createInternalItemId (t : InternalItemType) (args : List Str) : Str :=
  "__VLS_::".toList ++ internalItemTypeStr t ++ "::".toList ++ joinWith [','] args

/-- `readInternalItemId`: keys starting with the sentinel are split on `::`;
piece 1 is the type, piece 2 is split on `,` for the args.  (When the split
yields fewer than three pieces the JavaScript code would fault on
`undefined`; such keys are not produced by `createInternalItemId` and the
missing piece is modelled as the empty string.) -/
def readInternalItemId (key : Str) : Option (Str × List Str) :=
  if "__VLS_::".toList.isPrefixOf key then
    let strs := splitColons key
    some (strs.getD 1 [], splitComma (strs.getD 2 []))
  else none

theorem splitColons_no_colons (s : Str) (h : hasColons s = false) :
    splitColons s = [s] := by
  induction s with
  | nil => rfl
  | cons c rest ih =>
    simp only [hasColons, Bool.or_eq_false_iff, Bool.and_eq_false_iff,
      decide_eq_false_iff_not] at h
    rw [splitColons.eq_def]
    split
    · rename_i rest2 heq
      injection heq with h1 h2
      subst h1
      subst h2
      rcases h.1 with h1 | h1 <;> simp_all
    · rename_i hno c' rest' heq
      injection heq with h1 h2
      subst h1
      subst h2
      rw [ih h.2]
      rfl
    · simp_all

theorem splitColons_append (a b : Str) (h : ∀ c ∈ a, c ≠ ':') :
    splitColons (a ++ ':' :: ':' :: b) = a :: splitColons b := by
  induction a with
  | nil => rfl
  | cons x xs ih =>
    have hx : x ≠ ':' := h x (by simp)
    rw [List.cons_append, splitColons.eq_def]
    split
    · rename_i rest2 heq
      exact absurd (List.cons.inj heq).1 hx
    · rename_i hno c' rest' heq
      injection heq with h1 h2
      subst h1
      subst h2
      rw [ih (fun c hc => h c (by simp [hc]))]
      rfl
    · simp_all

theorem hasColons_append_comma (a b : Str) (ha : hasColons a = false)
    (hb : hasColons b = false) : hasColons (a ++ ',' :: b) = false := by
  induction a with
  | nil => simp [hasColons, hb]
  | cons c cs ih =>
    simp only [hasColons, Bool.or_eq_false_iff, Bool.and_eq_false_iff,
      decide_eq_false_iff_not] at ha ⊢
    refine ⟨?_, ih ha.2⟩
    cases cs with
    | nil => right; simp
    | cons d ds =>
      rcases ha.1 with h1 | h1
      · exact Or.inl h1
      · right; simpa using h1

theorem hasColons_join_comma (args : List Str)
    (h : ∀ a ∈ args, hasColons a = false) :
    hasColons (joinWith [','] args) = false := by
  induction args with
  | nil => rfl
  | cons a rest ih =>
    cases rest with
    | nil => exact h a (by simp)
    | cons a2 rest2 =>
      have hj : joinWith [','] (a :: a2 :: rest2) =
          a ++ ',' :: joinWith [','] (a2 :: rest2) := by
        show a ++ [','] ++ joinWith [','] (a2 :: rest2) = _
        simp
      rw [hj]
      exact hasColons_append_comma _ _ (h a (by simp))
        (ih (fun x hx => h x (by simp [hx])))

theorem splitComma_no_comma (s : Str) (h : ',' ∉ s) : splitComma s = [s] := by
  induction s with
  | nil => rfl
  | cons c cs ih =>
    rw [splitComma, if_neg (by intro hc; exact h (by simp [hc]))]
    rw [ih (fun hc => h (by simp [hc]))]
    rfl

theorem splitComma_cons_append (a b : Str) (h : ',' ∉ a) :
    splitComma (a ++ ',' :: b) = a :: splitComma b := by
  induction a with
  | nil => rw [List.nil_append, splitComma, if_pos rfl]
  | cons c cs ih =>
    rw [List.cons_append, splitComma,
      if_neg (by intro hc; exact h (by simp [hc]))]
    rw [ih (fun hc => h (by simp [hc]))]
    rfl

theorem splitComma_join (args : List Str) (hne : args ≠ [])
    (h : ∀ a ∈ args, ',' ∉ a) :
    splitComma (joinWith [','] args) = args := by
  induction args with
  | nil => exact absurd rfl hne
  | cons a rest ih =>
    cases rest with
    | nil => exact splitComma_no_comma a (h a (by simp))
    | cons a2 rest2 =>
      have hj : joinWith [','] (a :: a2 :: rest2) =
          a ++ ',' :: joinWith [','] (a2 :: rest2) := by
        show a ++ [','] ++ joinWith [','] (a2 :: rest2) = _
        simp
      rw [hj, splitComma_cons_append a _ (h a (by simp))]
      rw [ih (by simp) (fun x hx => h x (by simp [hx]))]

theorem internalItemTypeStr_no_colon (t : InternalItemType) :
    ∀ c ∈ internalItemTypeStr t, c ≠ ':' := by
  cases t <;> decide

/-- Claim C10 (amended): for either internal item type and every non-empty
argument list whose strings contain neither `::` nor `,`, decoding the
encoded id returns the original type and argument list; a key that does
not start with the sentinel `__VLS_::` decodes to nothing. -/
theorem readInternalItemId_createInternalItemId (t : InternalItemType)
    (args : List Str) (hne : args ≠ [])
    (hcolon : ∀ a ∈ args, hasColons a = false)
    (hcomma : ∀ a ∈ args, ',' ∉ a) :
    readInternalItemId (createInternalItemId t args) =
      some (internalItemTypeStr t, args) ∧
    (∀ key : Str, ¬ ("__VLS_::".toList <+: key) → readInternalItemId key = none) := by
  constructor
  · have hkey : createInternalItemId t args =
        "__VLS_".toList ++ ':' :: ':' ::
          (internalItemTypeStr t ++ ':' :: ':' :: joinWith [','] args) := by
      show "__VLS_::".toList ++ internalItemTypeStr t ++ "::".toList
          ++ joinWith [','] args = _
      simp
    rw [readInternalItemId, hkey]
    rw [if_pos]
    · have hsplit : splitColons ("__VLS_".toList ++ ':' :: ':' ::
          (internalItemTypeStr t ++ ':' :: ':' :: joinWith [','] args)) =
          ["__VLS_".toList, internalItemTypeStr t, joinWith [','] args] := by
        rw [splitColons_append _ _ (by decide)]
        rw [splitColons_append _ _ (internalItemTypeStr_no_colon t)]
        rw [splitColons_no_colons _ (hasColons_join_comma args hcolon)]
      rw [hsplit]
      show some (internalItemTypeStr t, splitComma (joinWith [','] args)) =
        some (internalItemTypeStr t, args)
      rw [splitComma_join args hne hcomma]
    · simp only [List.isPrefixOf_iff_prefix]
      refine ⟨internalItemTypeStr t ++ ':' :: ':' :: joinWith [','] args, ?_⟩
      have h8 : ("__VLS_::".toList : Str) = "__VLS_".toList ++ [':', ':'] := rfl
      rw [h8, List.append_assoc]
      rfl
  · intro key hk
    rw [readInternalItemId, if_neg]
    simp only [List.isPrefixOf_iff_prefix]
    exact hk

theorem readInternalItemId_createInternalItemId_witness :
    readInternalItemId
        (createInternalItemId .componentProp ["Btn".toList, "size".toList]) =
      some ("componentProp".toList, ["Btn".toList, "size".toList]) := by
  have h := (readInternalItemId_createInternalItemId .componentProp
    ["Btn".toList, "size".toList] (by decide) (by decide) (by decide)).1
  exact h

/-- Claim C10 counterexample: for the empty argument list (its strings
vacuously contain neither `::` nor `,`) the round trip does not return the
original list: decoding yields a one-element list holding the empty
string. -/
theorem readInternalItemId_empty_args_counterexample :
    readInternalItemId (createInternalItemId .componentProp []) ≠
        some (internalItemTypeStr .componentProp, []) ∧
      readInternalItemId (createInternalItemId .componentProp []) =
        some ("componentProp".toList, [[]]) := by
  decide

/-! ## Per-language formatting edit collection

Backend formatting edits carry a range in the virtual document; the
projection maps (`getSourceRange` / `getSourceRanges`) are abstracted as
functions of the opaque range.  `transformTextEdit` (from the transforms
package, not part of the shown sources) is modelled from the spec. -/

structure SimpleEdit where
  newText : Str
  range : Nat × Nat
deriving DecidableEq

/-- Modelled from the spec: `transformTextEdit` of the transforms package
translates the edit's range through the map and keeps `newText`
unmodified; an edit whose range has no source range is dropped
(`undefined`). -/
def transformTextEdit (edit : SimpleEdit)
    (getRange : Nat × Nat → Option (Nat × Nat)) : Option SimpleEdit :=
  match getRange edit.range with
  | some r => some ⟨edit.newText, r⟩
  | none => none

/-- A markup (html or pug) source map: the backend's formatting response
for its mapped document, and the projection to the composite document. -/
structure MarkupMap where
  backendEdits : List SimpleEdit
  getSourceRange : Nat × Nat → Option (Nat × Nat)

/-- `getHtmlFormattingEdits`. -/
def getHtmlFormattingEdits (maps : List MarkupMap) : List SimpleEdit :=
  maps.flatMap fun m =>
    m.backendEdits.filterMap fun e => transformTextEdit e m.getSourceRange

/-- `getPugFormattingEdits` (same shape as the html collector). -/
def getPugFormattingEdits (maps : List MarkupMap) : List SimpleEdit :=
  maps.flatMap fun m =>
    m.backendEdits.filterMap fun e => transformTextEdit e m.getSourceRange

theorem mem_markup_edits (maps : List MarkupMap) (e : SimpleEdit) :
    e ∈ (maps.flatMap fun m =>
        m.backendEdits.filterMap fun be => transformTextEdit be m.getSourceRange) ↔
      ∃ m ∈ maps, ∃ be ∈ m.backendEdits, ∃ r,
        m.getSourceRange be.range = some r ∧ e = ⟨be.newText, r⟩ := by
  simp only [List.mem_flatMap, List.mem_filterMap]
  constructor
  · rintro ⟨m, hm, be, hbe, ht⟩
    rw [transformTextEdit] at ht
    rcases hr : m.getSourceRange be.range with _ | r
    · rw [hr] at ht; cases ht
    · rw [hr] at ht
      exact ⟨m, hm, be, hbe, r, hr, (Option.some.inj ht).symm⟩
  · rintro ⟨m, hm, be, hbe, r, hr, he⟩
    refine ⟨m, hm, be, hbe, ?_⟩
    rw [transformTextEdit, hr, he]

/-! ## Script formatting (`getTsFormattingEdits`)

The dummy TypeScript language-service response for each map's mapped
document is carried as `backendEdits`; `getSourceRanges` returns the
projected source ranges together with the mapping data of the covering
entry (`vueRange.data.capabilities.formatting`). -/

structure TsVueRange where
  range : Nat × Nat
  formatting : Bool
deriving DecidableEq

structure TsSourceMap where
  formatting : Bool
  backendEdits : List SimpleEdit
  getSourceRanges : Nat × Nat → List TsVueRange

structure TsOutEdit where
  newText : Str
  range : TsVueRange
deriving DecidableEq

/-- `getTsFormattingEdits`: the ts maps (template formatting script and
script-section documents) are filtered for presence, then for the
map-level formatting capability; each backend edit is projected and
entries without the `formatting` data capability are skipped. -/
def getTsFormattingEdits (maps : List (Option TsSourceMap)) : List TsOutEdit :=
  (maps.filterMap id).flatMap fun m =>
    if m.formatting then
      m.backendEdits.flatMap fun te =>
        (m.getSourceRanges te.range).flatMap fun vr =>
          if vr.formatting then [⟨te.newText, vr⟩] else []
    else []

/-- Claim C3: an edit is in the script-formatting output exactly when it
comes from a present map whose map-level formatting capability is set,
from a backend edit whose projected range's covering mapping entry has the
formatting capability set; in particular every emitted edit's covering
entry has formatting enabled. -/
theorem getTsFormattingEdits_capability_gated
    (maps : List (Option TsSourceMap)) (e : TsOutEdit) :
    (e ∈ getTsFormattingEdits maps ↔
      ∃ m, some m ∈ maps ∧ m.formatting = true ∧
        ∃ te ∈ m.backendEdits, ∃ vr ∈ m.getSourceRanges te.range,
          vr.formatting = true ∧ e = ⟨te.newText, vr⟩) ∧
    (e ∈ getTsFormattingEdits maps → e.range.formatting = true) := by
  have hmain : e ∈ getTsFormattingEdits maps ↔
      ∃ m, some m ∈ maps ∧ m.formatting = true ∧
        ∃ te ∈ m.backendEdits, ∃ vr ∈ m.getSourceRanges te.range,
          vr.formatting = true ∧ e = ⟨te.newText, vr⟩ := by
    simp only [getTsFormattingEdits, List.mem_flatMap, List.mem_filterMap, id]
    constructor
    · rintro ⟨m, ⟨om, hom, hid⟩, hmem⟩
      cases om with
      | none => cases hid
      | some m' =>
        cases hid
        rcases hf : m.formatting with _ | _
        · rw [hf] at hmem; cases hmem
        · rw [hf, if_pos rfl] at hmem
          simp only [List.mem_flatMap] at hmem
          rcases hmem with ⟨te, hte, vr, hvr, hin⟩
          rcases hvf : vr.formatting with _ | _
          · rw [hvf] at hin; cases hin
          · rw [hvf, if_pos rfl] at hin
            simp only [List.mem_singleton] at hin
            exact ⟨m, hom, hf, te, hte, vr, hvr, hvf, hin⟩
    · rintro ⟨m, hom, hf, te, hte, vr, hvr, hvf, he⟩
      refine ⟨m, ⟨some m, hom, rfl⟩, ?_⟩
      rw [hf, if_pos rfl]
      simp only [List.mem_flatMap]
      exact ⟨te, hte, vr, hvr, by rw [hvf, if_pos rfl, he]; simp⟩
  refine ⟨hmain, fun he => ?_⟩
  rcases hmain.mp he with ⟨m, _, _, te, _, vr, _, hvf, heq⟩
  rw [heq]
  exact hvf

/-! ## Style formatting (`getCssFormattingEdits`) -/

structure StyleMap where
  formatting : Bool
  languageId : Str
  docText : Str
  getSourceRange : Nat × Nat → Option (Nat × Nat)

/-- The four style backends passed to `register`. -/
structure CssFormatters where
  css : Str → List SimpleEdit
  less : Str → List SimpleEdit
  scss : Str → List SimpleEdit
  postcss : Str → List SimpleEdit

/-- The direct lookup `formatters[languageId]`, guarded by the source's
four-way language-identifier check. -/
def lookupCssFormatter (f : CssFormatters) (id : Str) :
    Option (Str → List SimpleEdit) :=
  if id = "css".toList then some f.css
  else if id = "less".toList then some f.less
  else if id = "scss".toList then some f.scss
  else if id = "postcss".toList then some f.postcss
  else none

/-- `getCssFormattingEdits`: maps without the formatting capability or with
an unrecognized language identifier are skipped; otherwise the selected
backend's edits are translated (dropping unmapped ones). -/
def getCssFormattingEdits (f : CssFormatters) (maps : List StyleMap) :
    List SimpleEdit :=
  maps.flatMap fun m =>
    if m.formatting then
      match lookupCssFormatter f m.languageId with
      | some fmt =>
        (fmt m.docText).filterMap fun e => transformTextEdit e m.getSourceRange
      | none => []
    else []

/-- Claim C9: the style backend is selected by direct lookup on the mapped
document's language identifier among exactly `css`, `less`, `scss` and
`postcss`; a style map whose language identifier is any other value, or
which lacks the formatting capability, contributes no edits and is
skipped. -/
theorem getCssFormattingEdits_dialect_lookup (f : CssFormatters)
    (m : StyleMap) (maps : List StyleMap) :
    (m.formatting = false →
      getCssFormattingEdits f (m :: maps) = getCssFormattingEdits f maps) ∧
    (m.languageId ∉
        ["css".toList, "less".toList, "scss".toList, "postcss".toList] →
      getCssFormattingEdits f (m :: maps) = getCssFormattingEdits f maps) ∧
    lookupCssFormatter f "css".toList = some f.css ∧
    lookupCssFormatter f "less".toList = some f.less ∧
    lookupCssFormatter f "scss".toList = some f.scss ∧
    lookupCssFormatter f "postcss".toList = some f.postcss := by
  refine ⟨?_, ?_, ?_, ?_, ?_, ?_⟩
  · intro h
    simp [getCssFormattingEdits, h]
  · intro h
    simp only [List.mem_cons, List.mem_singleton, not_or] at h
    have hnone : lookupCssFormatter f m.languageId = none := by
      rw [lookupCssFormatter, if_neg h.1, if_neg h.2.1, if_neg h.2.2.1,
        if_neg h.2.2.2.1]
    simp [getCssFormattingEdits, hnone]
  · rw [lookupCssFormatter, if_pos rfl]
  · rw [lookupCssFormatter, if_neg (by decide), if_pos rfl]
  · rw [lookupCssFormatter, if_neg (by decide), if_neg (by decide), if_pos rfl]
  · rw [lookupCssFormatter, if_neg (by decide), if_neg (by decide),
      if_neg (by decide), if_pos rfl]

/-- A concrete formatter record for the witness. -/
def cssFormattersNull : CssFormatters :=
  ⟨fun _ => [], fun _ => [], fun _ => [], fun _ => []⟩

theorem getCssFormattingEdits_dialect_lookup_witness :
    getCssFormattingEdits cssFormattersNull
        [⟨true, "styl".toList, [], fun _ => none⟩] = [] := by
  have h := (getCssFormattingEdits_dialect_lookup cssFormattersNull
    ⟨true, "styl".toList, [], fun _ => none⟩ []).2.1 (by decide)
  exact h

theorem mem_filterMap_transform (edits : List SimpleEdit)
    (g : Nat × Nat → Option (Nat × Nat)) (e : SimpleEdit) :
    e ∈ edits.filterMap (fun be => transformTextEdit be g) ↔
      ∃ be ∈ edits, ∃ r, g be.range = some r ∧ e = ⟨be.newText, r⟩ := by
  simp only [List.mem_filterMap]
  constructor
  · rintro ⟨be, hbe, ht⟩
    rw [transformTextEdit] at ht
    rcases hr : g be.range with _ | r
    · rw [hr] at ht
      cases ht
    · rw [hr] at ht
      exact ⟨be, hbe, r, hr, (Option.some.inj ht).symm⟩
  · rintro ⟨be, hbe, r, hr, he⟩
    refine ⟨be, hbe, ?_⟩
    rw [transformTextEdit, hr, he]

theorem mem_style_edits (f : CssFormatters) (smaps : List StyleMap)
    (e : SimpleEdit) :
    e ∈ getCssFormattingEdits f smaps ↔
      ∃ m ∈ smaps, m.formatting = true ∧
        ∃ fmt, lookupCssFormatter f m.languageId = some fmt ∧
          ∃ be ∈ fmt m.docText, ∃ r,
            m.getSourceRange be.range = some r ∧ e = ⟨be.newText, r⟩ := by
  simp only [getCssFormattingEdits, List.mem_flatMap]
  constructor
  · rintro ⟨m, hm, hmem⟩
    rcases hf : m.formatting with _ | _
    · rw [hf] at hmem
      simp at hmem
    · rw [hf] at hmem
      rw [if_pos rfl] at hmem
      rcases hlk : lookupCssFormatter f m.languageId with _ | fmt
      · simp only [hlk] at hmem
        simp at hmem
      · simp only [hlk] at hmem
        rcases (mem_filterMap_transform _ _ _).mp hmem with ⟨be, hbe, r, hr, he⟩
        exact ⟨m, hm, hf, fmt, hlk, be, hbe, r, hr, he⟩
  · rintro ⟨m, hm, hf, fmt, hlk, be, hbe, r, hr, he⟩
    refine ⟨m, hm, ?_⟩
    rw [hf, if_pos rfl]
    simp only [hlk]
    exact (mem_filterMap_transform _ _ _).mpr ⟨be, hbe, r, hr, he⟩

/-- Claim C7: in the markup (html / pug) and style formatting collectors
every backend edit is translated independently: it appears in the result
exactly when its range has a source range (for a style map, additionally
one whose formatting capability is set and whose language identifier
selects a backend), and then with its original `newText` unchanged; an
edit whose range has no source range is dropped. -/
theorem markup_formatting_edits_translate_independently
    (maps : List MarkupMap) (e : SimpleEdit) :
    (e ∈ getHtmlFormattingEdits maps ↔
      ∃ m ∈ maps, ∃ be ∈ m.backendEdits, ∃ r,
        m.getSourceRange be.range = some r ∧ e = ⟨be.newText, r⟩) ∧
    (e ∈ getPugFormattingEdits maps ↔
      ∃ m ∈ maps, ∃ be ∈ m.backendEdits, ∃ r,
        m.getSourceRange be.range = some r ∧ e = ⟨be.newText, r⟩) ∧
    (∀ (f : CssFormatters) (smaps : List StyleMap),
      e ∈ getCssFormattingEdits f smaps ↔
        ∃ m ∈ smaps, m.formatting = true ∧
          ∃ fmt, lookupCssFormatter f m.languageId = some fmt ∧
            ∃ be ∈ fmt m.docText, ∃ r,
              m.getSourceRange be.range = some r ∧ e = ⟨be.newText, r⟩) :=
  ⟨mem_markup_edits maps e, mem_markup_edits maps e,
    fun f smaps => mem_style_edits f smaps e⟩

/-! ## Indentation repair (`patchInterpolationIndent`)

Offsets are used for ranges: `document.positionAt` / `document.getText`
round-trip through offsets, so a mapping's `sourceRange` and the produced
edit range are carried as start/end offsets. -/

structure FmtMapping where
  srcStart : Nat
  srcEnd : Nat
  formatting : Bool
deriving DecidableEq

structure IndentEdit where
  newText : Str
  rangeStart : Nat
  rangeEnd : Nat
deriving DecidableEq

/-- `document.getText(textRange)` for the mapping's source range. -/
def spanText (doc : Str) (m : FmtMapping) : Str :=
  (doc.take m.srcEnd).drop m.srcStart

/-- `document.getText({start: startPos, end: line start})`: the text of the
line containing `off`, up to `off` (JavaScript `substring` swaps the
reversed bounds). -/
def lineTextUpTo (doc : Str) (off : Nat) : Str :=
  afterLastNl (doc.take off)

/-- The body of the interior-line loop:
`line.replace(removeIndent, baseIndent)` when the line starts with the
removal indent, otherwise `baseIndent.replace(removeIndent, '') + line`. -/
def patchLine (removeIndent baseIndent line : Str) : Str :=
  if removeIndent.isPrefixOf line then replaceFirst line removeIndent baseIndent
  else replaceFirst baseIndent removeIndent [] ++ line

/-- The loop `for (let i = 1; i < lines.length; i++)`: the first line is
kept, every later line is patched. -/
def patchLines (removeIndent baseIndent : Str) : List Str → List Str
  | [] => []
  | l0 :: rest => l0 :: rest.map (patchLine removeIndent baseIndent)

/-- Processing of one mapping of the template formatting script's source
map: skipped without the formatting capability or without a newline in the
span text; otherwise an edit replacing the span is produced. -/
def patchEntry (doc : Str) (m : FmtMapping) : Option IndentEdit :=
  if m.formatting = false then none
  else
    let text := spanText doc m
    if text.contains '\n' = false then none
    else
      let lines := splitOnNl text
      let removeIndent := leadingWS (lines.getLastD [])
      let baseIndent := leadingWS (lineTextUpTo doc m.srcStart)
      some ⟨joinNl (patchLines removeIndent baseIndent lines),
        m.srcStart, m.srcEnd⟩

/-- `patchInterpolationIndent`: no source map yields no edits, otherwise
one edit per qualifying mapping. -/
def patchInterpolationIndent (doc : Str)
    (tsSourceMap : Option (List FmtMapping)) : List IndentEdit :=
  match tsSourceMap with
  | none => []
  | some maps => maps.filterMap (patchEntry doc)

/-- Strip a leading occurrence of `p` from `s` (the claim's words: "with
the removal-indent prefix stripped"). -/
def stripLead (p s : Str) : Str :=
  if p.isPrefixOf s then s.drop p.length else s

/-- Claim C1's interior-line rule, read literally: replace a removal-indent
prefix by the base indent, otherwise put the base indent with the
removal-indent prefix stripped in front of the line. -/
def claimInteriorLineStrict (removeIndent baseIndent line : Str) : Str :=
  if removeIndent.isPrefixOf line then baseIndent ++ line.drop removeIndent.length
  else stripLead removeIndent baseIndent ++ line

def claimPatchListStrict (removeIndent baseIndent : Str) : List Str → List Str
  | [] => []
  | l0 :: rest => l0 :: rest.map (claimInteriorLineStrict removeIndent baseIndent)

/-- The full line of `doc` containing offset `off` (claim C1's words for
the base indent speak of "the line containing the span's start"). -/
def lineAtOffset (doc : Str) (off : Nat) : Str :=
  lineTextUpTo doc off ++ (doc.drop off).takeWhile (fun c => !(c == '\n'))

/-- Claim C1's repaired span text, read literally: base indent taken from
the whole line containing the span start, interior lines per
`claimInteriorLineStrict`. -/
def claimRepairStrict (doc : Str) (m : FmtMapping) : Str :=
  let text := spanText doc m
  let lines := splitOnNl text
  let removeIndent := leadingWS (lines.getLastD [])
  let baseIndent := leadingWS (lineAtOffset doc m.srcStart)
  joinNl (claimPatchListStrict removeIndent baseIndent lines)

/-- Claim C1's interior-line rule as amended: the else branch removes the
first occurrence of the removal indent from the base indent (JavaScript
`replace`), not only a leading one. -/
def claimInteriorLine (removeIndent baseIndent line : Str) : Str :=
  if removeIndent.isPrefixOf line then baseIndent ++ line.drop removeIndent.length
  else replaceFirst baseIndent removeIndent [] ++ line

def claimPatchList (removeIndent baseIndent : Str) : List Str → List Str
  | [] => []
  | l0 :: rest => l0 :: rest.map (claimInteriorLine removeIndent baseIndent)

/-- Claim C1's repaired span text as amended: base indent taken from the
text of the start line before the span start. -/
def claimRepairAmended (doc : Str) (m : FmtMapping) : Str :=
  let text := spanText doc m
  let lines := splitOnNl text
  let removeIndent := leadingWS (lines.getLastD [])
  let baseIndent := leadingWS (lineTextUpTo doc m.srcStart)
  joinNl (claimPatchList removeIndent baseIndent lines)

theorem replaceFirst_of_isPrefixOf (s pat rep : Str)
    (h : pat.isPrefixOf s = true) :
    replaceFirst s pat rep = rep ++ s.drop pat.length := by
  cases s with
  | nil =>
    have hp : pat = [] := by
      cases pat with
      | nil => rfl
      | cons c cs => simp [List.isPrefixOf] at h
    subst hp
    simp [replaceFirst]
  | cons c rest => rw [replaceFirst, if_pos h]

theorem patchLine_eq_claimInteriorLine (removeIndent baseIndent line : Str) :
    patchLine removeIndent baseIndent line =
      claimInteriorLine removeIndent baseIndent line := by
  by_cases h : removeIndent.isPrefixOf line = true
  · rw [patchLine, if_pos h, claimInteriorLine, if_pos h,
      replaceFirst_of_isPrefixOf _ _ _ h]
  · rw [patchLine, if_neg (by simp_all), claimInteriorLine, if_neg (by simp_all)]

theorem patchLines_eq_claimPatchList (removeIndent baseIndent : Str)
    (lines : List Str) :
    patchLines removeIndent baseIndent lines =
      claimPatchList removeIndent baseIndent lines := by
  cases lines with
  | nil => rfl
  | cons l0 rest =>
    rw [patchLines, claimPatchList]
    rw [List.map_congr_left (fun l _ => patchLine_eq_claimInteriorLine
      removeIndent baseIndent l)]

/-- Claim C1 (amended): for every formatting-capable mapping whose source
span contains a newline, the produced edit replaces the span by the span
text with every interior line patched: a line starting with the removal
indent (the leading whitespace of the span's last line) has that prefix
replaced by the base indent (the leading whitespace of the start line's
text before the span start), and any other interior line is prefixed with
the base indent with the first occurrence of the removal indent removed. -/
theorem patchInterpolationIndent_repair (doc : Str) (maps : List FmtMapping)
    (m : FmtMapping) (hm : m ∈ maps) (hf : m.formatting = true)
    (hnl : (spanText doc m).contains '\n' = true) :
    patchEntry doc m =
      some ⟨claimRepairAmended doc m, m.srcStart, m.srcEnd⟩ ∧
    (⟨claimRepairAmended doc m, m.srcStart, m.srcEnd⟩ : IndentEdit) ∈
      patchInterpolationIndent doc (some maps) := by
  have hentry : patchEntry doc m =
      some ⟨claimRepairAmended doc m, m.srcStart, m.srcEnd⟩ := by
    rw [patchEntry, if_neg (by simp [hf]), if_neg (by rw [hnl]; simp)]
    have hc : claimRepairAmended doc m =
        joinNl (claimPatchList (leadingWS ((splitOnNl (spanText doc m)).getLastD []))
          (leadingWS (lineTextUpTo doc m.srcStart)) (splitOnNl (spanText doc m))) := rfl
    rw [hc, ← patchLines_eq_claimPatchList]
  refine ⟨hentry, ?_⟩
  rw [patchInterpolationIndent]
  exact List.mem_filterMap.mpr ⟨m, hm, hentry⟩

theorem patchInterpolationIndent_repair_witness :
    patchEntry ("  <div>\na\nb\n</div>".toList) ⟨2, 18, true⟩ =
      some ⟨"<div>\n  a\n  b\n  </div>".toList, 2, 18⟩ := by
  have h := (patchInterpolationIndent_repair ("  <div>\na\nb\n</div>".toList)
    [⟨2, 18, true⟩] ⟨2, 18, true⟩ (by decide) rfl (by decide)).1
  exact h.trans (by decide)

/-- Claim C1 counterexample: in the document `"\t  A\n\tB\n C"` with span
[2, 10) (span text `" A\n\tB\n C"`, removal indent one space), the interior
line `"\tB"` does not start with the removal indent; the code produces
`"\t\tB"` (the base indent is taken from the text before the span start and
the space is removed from inside it) while the claim's literal reading
produces `"\t  \tB"`. -/
theorem patchInterpolationIndent_counterexample :
    (patchEntry ("\t  A\n\tB\n C".toList) ⟨2, 10, true⟩).map IndentEdit.newText ≠
        some (claimRepairStrict ("\t  A\n\tB\n C".toList) ⟨2, 10, true⟩) ∧
      (⟨2, 10, true⟩ : FmtMapping).formatting = true ∧
      (spanText ("\t  A\n\tB\n C".toList) ⟨2, 10, true⟩).contains '\n' = true ∧
      (patchEntry ("\t  A\n\tB\n C".toList) ⟨2, 10, true⟩).map IndentEdit.newText =
        some (" A\n\t\tB\n\t C".toList) ∧
      claimRepairStrict ("\t  A\n\tB\n C".toList) ⟨2, 10, true⟩ =
        " A\n\t  \tB\n\t  C".toList := by
  decide

/-! ## Semantic tokens (`provideDocumentSemanticTokens`)

The markup scanner is abstracted as the finite token stream it yields
before EOS; `getComponentNames` is abstracted as the resolved component
name list.  `hyphenateTag` lives in a package outside the shown sources. -/

/-- Modelled from the spec: `hyphenateTag`, the hyphenated-case (kebab)
form of a tag name: interior capitals become `-` plus the lower-case
letter, the first character is lowered. -/
def hyphenateTag : Str → Str
  | [] => []
  | c :: rest =>
    c.toLower :: rest.flatMap fun d => if d.isUpper then ['-', d.toLower] else [d]

inductive TokKind
  | startTag
  | endTag
  | other
deriving DecidableEq

structure ScanTok where
  kind : TokKind
  offset : Nat
  text : Str
  len : Nat
deriving DecidableEq

/-- JavaScript `Array.prototype.indexOf` on the token-type legend. -/
def jsIndexOf : List Str → Str → Int
  | [], _ => -1
  | a :: rest, x =>
    if a = x then 0
    else
      let r := jsIndexOf rest x
      if r = -1 then -1 else r + 1

/-- `legend.tokenTypes.indexOf('component')`, falling back to
`legend.tokenTypes.indexOf('class')` when that is -1. -/
def componentTokenType (legend : List Str) : Int :=
  let t := jsIndexOf legend ("component".toList)
  if t = -1 then jsIndexOf legend ("class".toList) else t

/-- The component name set: resolved names and their hyphenated forms. -/
def componentsSet (comps : List Str) : List Str :=
  comps ++ comps.map hyphenateTag

/-- The token pushed for a recognized component tag:
`[line, character, length, tokenType, 0]`. -/
def mkSemTok (doc : Str) (legend : List Str) (t : ScanTok) :
    Nat × Nat × Nat × Int × Nat :=
  ((positionAt doc t.offset).1, (positionAt doc t.offset).2, t.len,
    componentTokenType legend, 0)

/-- The scan loop of `provideDocumentSemanticTokens`: stop at the first
token past the range end, and for start/end tags at or after the range
start whose text is in the component set (the `|| text.indexOf('.') >= 0`
disjunct guards an inner check that only fires on a set member), push a
component token. -/
def scanSemanticTokens (doc : Str) (comps : List Str) (startOff endOff : Nat)
    (legend : List Str) : List ScanTok → List (Nat × Nat × Nat × Int × Nat)
  | [] => []
  | t :: rest =>
    if endOff < t.offset then []
    else
      (if startOff ≤ t.offset ∧ (t.kind = .startTag ∨ t.kind = .endTag) then
        (if comps.contains t.text || t.text.contains '.' then
          (if comps.contains t.text then [mkSemTok doc legend t] else [])
         else [])
       else [])
      ++ scanSemanticTokens doc comps startOff endOff legend rest

/-- The provider result: the markup backend's tokens followed by the
pushed component tokens. -/
def provideSemanticTokens (base : List (Nat × Nat × Nat × Int × Nat))
    (doc : Str) (comps : List Str) (startOff endOff : Nat) (legend : List Str)
    (toks : List ScanTok) : List (Nat × Nat × Nat × Int × Nat) :=
  base ++ scanSemanticTokens doc (componentsSet comps) startOff endOff legend toks

theorem jsIndexOf_eq_neg_one_of_notMem (l : List Str) (x : Str) (h : x ∉ l) :
    jsIndexOf l x = -1 := by
  induction l with
  | nil => rfl
  | cons a rest ih =>
    have hun : jsIndexOf (a :: rest) x =
        (if a = x then (0 : Int)
         else
           let r := jsIndexOf rest x
           if r = -1 then -1 else r + 1) := rfl
    rw [hun, if_neg (fun hax => h (by simp [hax.symm]))]
    rw [show (jsIndexOf rest x) = -1 from ih (fun hx => h (by simp [hx]))]
    rfl

/-- Claim C5 (amended): a component token is pushed exactly for the tokens
of the scanned prefix (scanning stops at the first token past the range
end) that lie at or after the range start, are start or end tags, and
whose whole text is a known component name exactly or in hyphenated case;
a namespaced tag (text containing `.`) is not matched on its first
segment — only a full-text match pushes a token.  When the legend lacks
the `component` type, the pushed token type falls back to the index of
`class`. -/
theorem scanSemanticTokens_characterization (doc : Str) (comps : List Str)
    (startOff endOff : Nat) (legend : List Str) (toks : List ScanTok) :
    scanSemanticTokens doc comps startOff endOff legend toks =
      ((toks.takeWhile fun t => decide (t.offset ≤ endOff)).filter fun t =>
        decide (startOff ≤ t.offset) &&
          (decide (t.kind = .startTag) || decide (t.kind = .endTag)) &&
          comps.contains t.text).map (mkSemTok doc legend) ∧
    ("component".toList ∉ legend →
      componentTokenType legend = jsIndexOf legend ("class".toList)) := by
  constructor
  · induction toks with
    | nil => rfl
    | cons t rest ih =>
      rw [scanSemanticTokens]
      by_cases hend : endOff < t.offset
      · have hp : decide (t.offset ≤ endOff) = false := by
          simp only [decide_eq_false_iff_not]
          omega
        rw [if_pos hend, List.takeWhile_cons, hp]
        rfl
      · have hp : decide (t.offset ≤ endOff) = true := by
          simp only [decide_eq_true_eq]
          omega
        by_cases hguard : startOff ≤ t.offset ∧ (t.kind = .startTag ∨ t.kind = .endTag)
        · obtain ⟨hst, hkind⟩ := hguard
          by_cases hcon : comps.contains t.text = true
          · have hmem : t.text ∈ comps := by simpa using hcon
            rcases hkind with hk | hk <;>
              simp [hend, hp, hst, hk, hmem, ih, List.takeWhile_cons,
                List.filter_cons]
          · have hmem : t.text ∉ comps := by simpa using hcon
            rcases hkind with hk | hk <;>
              simp [hend, hp, hst, hk, hmem, ih, List.takeWhile_cons,
                List.filter_cons]
        · have hsel : (decide (startOff ≤ t.offset) &&
              (decide (t.kind = TokKind.startTag) || decide (t.kind = TokKind.endTag)) &&
              comps.contains t.text) = false := by
            rcases Decidable.not_and_iff_or_not.mp hguard with hg | hg
            · simp [hg]
            · simp only [not_or] at hg
              simp [hg.1, hg.2]
          rw [if_neg hend, List.takeWhile_cons, hp, if_pos rfl,
            List.filter_cons, hsel, if_neg hguard,
            if_neg (show ((false : Bool) = true) → False from by simp), ih]
          rfl
  · intro h
    rw [componentTokenType, jsIndexOf_eq_neg_one_of_notMem legend _ h, if_pos rfl]

theorem scanSemanticTokens_characterization_witness :
    scanSemanticTokens ("<Foo>".toList) ["Foo".toList] 0 9 ["component".toList]
        [⟨.startTag, 1, "Foo".toList, 3⟩] = [(0, 1, 3, 0, 0)] ∧
    componentTokenType ["class".toList] = 0 := by
  refine ⟨?_, ?_⟩
  · have h := (scanSemanticTokens_characterization ("<Foo>".toList)
      ["Foo".toList] 0 9 ["component".toList]
      [⟨.startTag, 1, "Foo".toList, 3⟩]).1
    exact h.trans (by decide)
  · have h := (scanSemanticTokens_characterization [] [] 0 0
      ["class".toList] []).2 (by decide)
    exact h.trans (by decide)

/-- Claim C5 counterexample: for the namespaced start tag `Foo.Bar` inside
the requested range, with `Foo` a known component name (so the segment
before the first separator matches), the provider adds no token at all:
the `tokenText.indexOf('.') >= 0` disjunct only guards an inner check that
requires the full text to be a known name. -/
theorem provideSemanticTokens_namespaced_counterexample :
    provideSemanticTokens [] ("<Foo.Bar>".toList) ["Foo".toList] 0 9
        ["component".toList] [⟨.startTag, 1, "Foo.Bar".toList, 7⟩] = [] ∧
    ("Foo.Bar".toList.takeWhile fun c => !(c == '.')) = "Foo".toList ∧
    componentsSet ["Foo".toList] = ["Foo".toList, "foo".toList] ∧
    (1 ≤ 9 ∧ (1 : Nat) ≥ 0) := by
  decide

/-! ## Completion post-pass (`afterHtmlCompletion`, per-item loop)

An item's documentation is either a plain string or a markup object with a
`value` field; the synthetic internal id rides in that field. -/

inductive DocContent
  | plain (s : Str)
  | markup (value : Str)
deriving DecidableEq

structure CompletionItem where
  label : Str
  kind : Option Nat
  sortText : Option Str
  documentation : Option DocContent
deriving DecidableEq

/-- `typeof documentation === 'string' ? documentation : documentation?.value`. -/
def itemDocKey : Option DocContent → Option Str
  | some (.plain s) => some s
  | some (.markup v) => some v
  | none => none

/-- `itemIdKey ? readInternalItemId(itemIdKey) : undefined`. -/
def itemInternalId (item : CompletionItem) : Option (Str × List Str) :=
  match itemDocKey item.documentation with
  | some k => readInternalItemId k
  | none => none

/-- The structural-directive / other-directive / default tail of the
else-if chain. -/
def completionTailBranches (item1 : CompletionItem) : CompletionItem :=
  if item1.label = "v-if".toList ∨ item1.label = "v-else-if".toList ∨
      item1.label = "v-else".toList ∨ item1.label = "v-for".toList then
    { item1 with
      kind := some 14
      sortText := some ('\u0003' :: item1.sortText.getD item1.label) }
  else if "v-".toList.isPrefixOf item1.label then
    { item1 with
      kind := some 3
      sortText := some ('\u0002' :: item1.sortText.getD item1.label) }
  else
    { item1 with sortText := some ('\u0001' :: item1.sortText.getD item1.label) }

/-- One iteration of the `for (const item of completionList.items)` loop:
strip the internal id from the documentation, then reclassify and re-sort
the item. -/
def afterHtmlCompletionItem (componentNamesHyph : List Str)
    (item : CompletionItem) : CompletionItem :=
  let itemId := itemInternalId item
  let item1 := match itemId with
    | some _ => { item with documentation := none }
    | none => item
  if item1.kind = some 10 ∧ hyphenateTag item1.label ∈ componentNamesHyph then
    { item1 with
      kind := some 6
      sortText := some ('\u0000' :: item1.sortText.getD item1.label) }
  else
    match itemId with
    | some iid =>
      if iid.1 = "componentProp".toList ∨ iid.1 = "componentEvent".toList then
        let componentName := iid.2.headD []
        let item2 :=
          if componentName ≠ ['*'] then
            { item1 with
              sortText := some ('\u0000' :: item1.sortText.getD item1.label) }
          else item1
        if iid.1 = "componentProp".toList then
          if componentName ≠ ['*'] then { item2 with kind := some 5 } else item2
        else
          { item2 with kind := some (if componentName ≠ ['*'] then 3 else 23) }
      else completionTailBranches item1
    | none => completionTailBranches item1

/-- The whole post-pass: `componentNames` is the hyphenated set of resolved
component names. -/
def afterHtmlCompletionItems (names : List Str)
    (items : List CompletionItem) : List CompletionItem :=
  items.map (afterHtmlCompletionItem (names.map hyphenateTag))

/-- The sort key a client uses: `sortText` if present, else the label. -/
def effKey (item : CompletionItem) : Str := item.sortText.getD item.label

/-- Lexicographic comparison of sort keys. -/
def strLt : Str → Str → Bool
  | [], [] => false
  | [], _ :: _ => true
  | _ :: _, [] => false
  | a :: as, b :: bs => if a < b then true else if b < a then false else strLt as bs

/-- Group of an item handled by the tail of the chain. -/
def claimTailGroup (item : CompletionItem) : Option (Fin 4) :=
  if item.label = "v-if".toList ∨ item.label = "v-else-if".toList ∨
      item.label = "v-else".toList ∨ item.label = "v-for".toList then some 3
  else if "v-".toList.isPrefixOf item.label then some 2
  else some 1

/-- The group a completion item belongs to, stated from the claim as
amended: 0 = component tags and component-specific props/events, 1 =
generic (non-directive) items, 2 = non-structural `v-` directives, 3 =
structural directives; `none` for items whose internal id names the
global target `*` (their sort text is left untouched). -/
def claimGroup (componentNamesHyph : List Str) (item : CompletionItem) :
    Option (Fin 4) :=
  if item.kind = some 10 ∧ hyphenateTag item.label ∈ componentNamesHyph then
    some 0
  else
    match itemInternalId item with
    | some iid =>
      if iid.1 = "componentProp".toList ∨ iid.1 = "componentEvent".toList then
        if iid.2.headD [] ≠ ['*'] then some 0 else none
      else claimTailGroup item
    | none => claimTailGroup item

def groupChar : Fin 4 → Char
  | 0 => '\u0000'
  | 1 => '\u0001'
  | 2 => '\u0002'
  | 3 => '\u0003'

theorem completionTail_key (item1 : CompletionItem) (g : Fin 4)
    (hg : claimTailGroup item1 = some g) :
    effKey (completionTailBranches item1) =
      groupChar g :: item1.sortText.getD item1.label := by
  rw [claimTailGroup] at hg
  rw [completionTailBranches]
  by_cases hs : item1.label = "v-if".toList ∨ item1.label = "v-else-if".toList ∨
      item1.label = "v-else".toList ∨ item1.label = "v-for".toList
  · rw [if_pos hs] at hg ⊢
    cases Option.some.inj hg
    rfl
  · rw [if_neg hs] at hg ⊢
    by_cases hv : "v-".toList.isPrefixOf item1.label = true
    · rw [if_pos hv] at hg ⊢
      cases Option.some.inj hg
      rfl
    · rw [if_neg hv] at hg ⊢
      cases Option.some.inj hg
      rfl

theorem afterItem_key_of_claimGroup (compsH : List Str) (item : CompletionItem)
    (g : Fin 4) (hg : claimGroup compsH item = some g) :
    effKey (afterHtmlCompletionItem compsH item) =
      groupChar g :: item.sortText.getD item.label := by
  rw [claimGroup] at hg
  by_cases hb1 : item.kind = some 10 ∧ hyphenateTag item.label ∈ compsH
  · rw [if_pos hb1] at hg
    cases Option.some.inj hg
    rcases hid : itemInternalId item with _ | iid <;>
      · simp only [afterHtmlCompletionItem, hid]
        rw [if_pos (by simpa using hb1)]
        rfl
  · rw [if_neg hb1] at hg
    rcases hid : itemInternalId item with _ | iid
    · simp only [hid] at hg
      simp only [afterHtmlCompletionItem, hid]
      rw [if_neg (by simpa using hb1)]
      exact completionTail_key item g hg
    · simp only [hid] at hg
      simp only [afterHtmlCompletionItem, hid]
      rw [if_neg (by simpa using hb1)]
      by_cases htype : iid.1 = "componentProp".toList ∨
          iid.1 = "componentEvent".toList
      · rw [if_pos htype] at hg ⊢
        by_cases hstar : iid.2.headD [] ≠ ['*']
        · rw [if_pos hstar] at hg
          cases Option.some.inj hg
          by_cases hprop : iid.1 = "componentProp".toList
          · rw [if_pos hprop, if_pos hstar, if_pos hstar]
            rfl
          · rw [if_neg hprop, if_pos hstar]
            rfl
        · rw [if_neg hstar] at hg
          cases hg
      · rw [if_neg htype] at hg ⊢
        exact completionTail_key ⟨item.label, item.kind, item.sortText, none⟩ g hg

theorem afterItem_sortText_untouched (compsH : List Str) (item : CompletionItem)
    (hg : claimGroup compsH item = none) :
    (afterHtmlCompletionItem compsH item).sortText = item.sortText := by
  rw [claimGroup] at hg
  by_cases hb1 : item.kind = some 10 ∧ hyphenateTag item.label ∈ compsH
  · rw [if_pos hb1] at hg
    cases hg
  · rw [if_neg hb1] at hg
    rcases hid : itemInternalId item with _ | iid
    · simp only [hid] at hg
      rw [claimTailGroup] at hg
      by_cases hs : item.label = "v-if".toList ∨ item.label = "v-else-if".toList ∨
          item.label = "v-else".toList ∨ item.label = "v-for".toList
      · rw [if_pos hs] at hg
        cases hg
      · rw [if_neg hs] at hg
        by_cases hv : "v-".toList.isPrefixOf item.label = true
        · rw [if_pos hv] at hg
          cases hg
        · rw [if_neg hv] at hg
          cases hg
    · simp only [hid] at hg
      by_cases htype : iid.1 = "componentProp".toList ∨
          iid.1 = "componentEvent".toList
      · rw [if_pos htype] at hg
        by_cases hstar : iid.2.headD [] ≠ ['*']
        · rw [if_pos hstar] at hg
          cases hg
        · simp only [afterHtmlCompletionItem, hid]
          rw [if_neg (by simpa using hb1), if_pos htype]
          have hstar2 : iid.2.headD [] = ['*'] := by
            by_contra hne
            exact hstar hne
          simp [hstar2, apply_ite CompletionItem.sortText]
          intro hne
          apply absurd _ hne
          simpa using hstar2
      · rw [if_neg htype] at hg
        rw [claimTailGroup] at hg
        by_cases hs : item.label = "v-if".toList ∨
            item.label = "v-else-if".toList ∨
            item.label = "v-else".toList ∨ item.label = "v-for".toList
        · rw [if_pos hs] at hg
          cases hg
        · rw [if_neg hs] at hg
          by_cases hv : "v-".toList.isPrefixOf item.label = true
          · rw [if_pos hv] at hg
            cases hg
          · rw [if_neg hv] at hg
            cases hg

theorem afterItem_documentation_stripped (compsH : List Str)
    (item : CompletionItem) (h : itemInternalId item ≠ none) :
    (afterHtmlCompletionItem compsH item).documentation = none := by
  rcases hid : itemInternalId item with _ | iid
  · exact absurd hid h
  · simp only [afterHtmlCompletionItem, hid, completionTailBranches,
      apply_ite CompletionItem.documentation]
    simp

theorem strLt_cons_of_lt (a b : Char) (as bs : Str) (h : a < b) :
    strLt (a :: as) (b :: bs) = true := by
  rw [strLt, if_pos h]

theorem groupChar_lt : ∀ g1 g2 : Fin 4, g1 < g2 → groupChar g1 < groupChar g2 := by
  decide

/-- Claim C6 (amended): after the completion post-pass every item whose
documentation carried the internal-id sentinel has its documentation
removed, and the rewritten sort keys realize four strictly separated
groups — component tags and component-specific props/events (`\u0000`),
then generic non-directive items (`\u0001`), then non-structural `v-`
directives (`\u0002`), then the structural directives v-if / v-else-if /
v-else / v-for (`\u0003`) — except that an item whose internal id names
the global target `*` (and which is not a component tag) keeps its
original sort text and falls outside the four groups. -/
theorem afterHtmlCompletion_groups (compsH : List Str) (i1 i2 : CompletionItem)
    (g1 g2 : Fin 4) :
    (itemInternalId i1 ≠ none →
      (afterHtmlCompletionItem compsH i1).documentation = none) ∧
    (claimGroup compsH i1 = some g1 →
      effKey (afterHtmlCompletionItem compsH i1) =
        groupChar g1 :: i1.sortText.getD i1.label) ∧
    (claimGroup compsH i1 = some g1 → claimGroup compsH i2 = some g2 →
      g1 < g2 →
      strLt (effKey (afterHtmlCompletionItem compsH i1))
        (effKey (afterHtmlCompletionItem compsH i2)) = true) ∧
    (claimGroup compsH i1 = none →
      (afterHtmlCompletionItem compsH i1).sortText = i1.sortText) ∧
    (∀ names items, afterHtmlCompletionItems names items =
      items.map (afterHtmlCompletionItem (names.map hyphenateTag))) := by
  refine ⟨afterItem_documentation_stripped compsH i1,
    afterItem_key_of_claimGroup compsH i1 g1, ?_,
    afterItem_sortText_untouched compsH i1, fun _ _ => rfl⟩
  intro h1 h2 hlt
  rw [afterItem_key_of_claimGroup compsH i1 g1 h1,
    afterItem_key_of_claimGroup compsH i2 g2 h2]
  exact strLt_cons_of_lt _ _ _ _ (groupChar_lt g1 g2 hlt)

theorem afterHtmlCompletion_groups_witness :
    strLt (effKey (afterHtmlCompletionItem [] ⟨"div".toList, none, none, none⟩))
        (effKey (afterHtmlCompletionItem [] ⟨"v-if".toList, none, none, none⟩))
      = true :=
  (afterHtmlCompletion_groups [] ⟨"div".toList, none, none, none⟩
    ⟨"v-if".toList, none, none, none⟩ 1 3).2.2.1 (by decide) (by decide)
    (by decide)

/-- Claim C6 counterexample: a generic (non-directive) item whose internal
id names the global target `*` keeps its original sort key (here the label
`zz`), so it sorts after the structural directive `v-if` (whose key starts
with `\u0003`), contradicting the claimed strict group order of generic
items before structural directives. -/
theorem afterHtmlCompletion_counterexample :
    afterHtmlCompletionItems []
        [⟨"zz".toList, none, none,
          some (.plain (createInternalItemId .componentProp
            [['*'], "zz".toList]))⟩,
         ⟨"v-if".toList, none, none, none⟩] =
      [⟨"zz".toList, none, none, none⟩,
       ⟨"v-if".toList, some 14, some ('\u0003' :: "v-if".toList), none⟩] ∧
    strLt (effKey ⟨"zz".toList, none, none, none⟩)
      (effKey ⟨"v-if".toList, some 14, some ('\u0003' :: "v-if".toList), none⟩)
      = false ∧
    "v-".toList.isPrefixOf ("zz".toList) = false := by
  decide

/-! ## Custom-block virtual files (vue-sfc-customblocks plugin)

The embedded-file name is matched against the pattern
`^(.*)\.customBlock_([^_]+)_(\d+)\.([^.]+)$`.  The match is modelled by a
deterministic decomposition: the end-anchored groups force the extension
(the dot-free suffix after the last dot), the digit group (the maximal
digit run before that dot, which must be preceded by `_`) and the type
group (the maximal `_`-free run before that underscore, which must be
preceded by the literal `.customBlock_`); `(.*)` never matches a line
terminator. -/

def digitChar : Nat → Char
  | 0 => '0'
  | 1 => '1'
  | 2 => '2'
  | 3 => '3'
  | 4 => '4'
  | 5 => '5'
  | 6 => '6'
  | 7 => '7'
  | 8 => '8'
  | _ => '9'

def natToCharsAux : Nat → Nat → Str
  | 0, _ => []
  | fuel + 1, n =>
    if n < 10 then [digitChar n]
    else natToCharsAux fuel (n / 10) ++ [digitChar (n % 10)]

/-- The decimal digits of `n` (JavaScript number-to-string for the
non-negative integers used as custom-block indices). -/
def natToChars (n : Nat) : Str := natToCharsAux (n + 1) n

def charVal (c : Char) : Nat := c.toNat - 48

/-- `parseInt` on a digit string. -/
def charsToNat (s : Str) : Nat := s.foldl (fun a c => a * 10 + charVal c) 0

/-- A JavaScript line terminator (not matched by `.` in a regex). -/
def lineTermB (c : Char) : Bool :=
  c == '\n' || c == '\r' || decide (c.toNat = 8232) || decide (c.toNat = 8233)

def customBlockMarker : Str := ".customBlock_".toList

/-- The maximal suffix of `s` whose characters satisfy `p`. -/
def suffixWhile (p : Char → Bool) (s : Str) : Str :=
  (s.reverse.takeWhile p).reverse

/-- The index captured by a successful match of the custom-block name
pattern (`parseInt(match[3])`); `none` when the pattern does not match. -/
def matchCustomBlock (s : Str) : Option Nat :=
  let ext := suffixWhile (fun c => !(c == '.')) s
  if ext.length = s.length then none
  else if ext = [] then none
  else
    let pre := s.take (s.length - ext.length - 1)
    let ds := suffixWhile Char.isDigit pre
    if ds = [] then none
    else
      let rest := pre.take (pre.length - ds.length)
      if rest.getLast? = some '_' then
        let rest2 := rest.dropLast
        let b := suffixWhile (fun c => !(c == '_')) rest2
        if b = [] then none
        else
          let head := rest2.take (rest2.length - b.length)
          if customBlockMarker.length ≤ head.length
              ∧ head.drop (head.length - customBlockMarker.length) =
                customBlockMarker
              ∧ (head.take (head.length - customBlockMarker.length)).all
                (fun c => !(lineTermB c))
          then some (charsToNat ds)
          else none
      else none

structure FileCapabilities where
  formatting : Bool
  completion : Bool
  diagnostic : Bool
  hover : Bool
  semanticTokens : Bool
  references : Bool
deriving DecidableEq

/-- Modelled from the spec: `enableAllFeatures` (generators/utils, not in
the shown sources) returns a capability set with every flag enabled. -/
def enableAllFeatures : FileCapabilities :=
  ⟨true, true, true, true, true, true⟩

structure SfcCustomBlock where
  type : Str
  lang : Str
  content : Str
  name : Str
deriving DecidableEq

/-- A content chunk `[text, source, sourceOffset, capabilities]`. -/
structure EmbeddedChunk where
  content : Str
  source : Str
  offset : Nat
  caps : FileCapabilities
deriving DecidableEq

/-- `fileName + '.customBlock_' + type + '_' + i + '.' + lang`. -/
def customBlockName (fileName : Str) (i : Nat) (b : SfcCustomBlock) : Str :=
  fileName ++ customBlockMarker ++ b.type ++ '_' :: natToChars i
    ++ '.' :: b.lang

def getEmbeddedFileNamesFrom (fileName : Str) (i : Nat) :
    List SfcCustomBlock → List Str
  | [] => []
  | b :: bs => customBlockName fileName i b ::
      getEmbeddedFileNamesFrom fileName (i + 1) bs

/-- `getEmbeddedFileNames` of the custom-blocks plugin. -/
def getEmbeddedFileNames (fileName : Str) (blocks : List SfcCustomBlock) :
    List Str :=
  getEmbeddedFileNamesFrom fileName 0 blocks

/-- `resolveEmbeddedFile`: on a pattern match, push one chunk with the
block's raw content, its section name as source, offset 0 and all
capabilities enabled.  (An out-of-range index would fault in the
JavaScript source; it is modelled as pushing nothing and is unreachable
for names produced by `getEmbeddedFileNames`.) -/
def resolveEmbeddedFile (blocks : List SfcCustomBlock)
    (embeddedFileName : Str) : List EmbeddedChunk :=
  match matchCustomBlock embeddedFileName with
  | some idx =>
    match blocks.get? idx with
    | some b => [⟨b.content, b.name, 0, enableAllFeatures⟩]
    | none => []
  | none => []

theorem takeWhile_all_stop (p : Char → Bool) (xs : Str) (c : Char) (ys : Str)
    (h1 : ∀ x ∈ xs, p x = true) (h2 : p c = false) :
    (xs ++ c :: ys).takeWhile p = xs := by
  induction xs with
  | nil => rw [List.nil_append, List.takeWhile_cons, h2]; rfl
  | cons x xs ih =>
    rw [List.cons_append, List.takeWhile_cons, h1 x (by simp), if_pos rfl,
      ih (fun y hy => h1 y (by simp [hy]))]

theorem suffixWhile_append (p : Char → Bool) (xs : Str) (c : Char) (ys : Str)
    (h1 : ∀ y ∈ ys, p y = true) (h2 : p c = false) :
    suffixWhile p (xs ++ c :: ys) = ys := by
  rw [suffixWhile, List.reverse_append,
    show (c :: ys).reverse = ys.reverse ++ [c] from by simp,
    List.append_assoc,
    show [c] ++ xs.reverse = c :: xs.reverse from rfl,
    takeWhile_all_stop p ys.reverse c xs.reverse
      (fun y hy => h1 y (List.mem_reverse.mp hy)) h2,
    List.reverse_reverse]

theorem charVal_digitChar (d : Nat) (h : d < 10) : charVal (digitChar d) = d := by
  interval_cases d <;> rfl

theorem digitChar_isDigit (d : Nat) (h : d < 10) :
    (digitChar d).isDigit = true := by
  interval_cases d <;> decide

theorem charsToNat_concat (xs : Str) (c : Char) :
    charsToNat (xs ++ [c]) = charsToNat xs * 10 + charVal c := by
  rw [charsToNat, charsToNat, List.foldl_append]
  rfl

theorem charsToNat_natToCharsAux (fuel n : Nat) (h : n < fuel) :
    charsToNat (natToCharsAux fuel n) = n := by
  induction fuel generalizing n with
  | zero => omega
  | succ fuel ih =>
    rw [natToCharsAux]
    by_cases h10 : n < 10
    · rw [if_pos h10]
      show 0 * 10 + charVal (digitChar n) = n
      rw [charVal_digitChar n h10]
      omega
    · have hdiv : n / 10 < fuel := by
        have hlt : n / 10 < n := Nat.div_lt_self (by omega) (by omega)
        omega
      rw [if_neg h10, charsToNat_concat, ih (n / 10) hdiv,
        charVal_digitChar (n % 10) (Nat.mod_lt _ (by omega))]
      omega

theorem charsToNat_natToChars (n : Nat) : charsToNat (natToChars n) = n :=
  charsToNat_natToCharsAux (n + 1) n (by omega)

theorem natToCharsAux_digits (fuel n : Nat) (h : n < fuel) :
    ∀ c ∈ natToCharsAux fuel n, c.isDigit = true := by
  induction fuel generalizing n with
  | zero => omega
  | succ fuel ih =>
    intro c hc
    rw [natToCharsAux] at hc
    by_cases h10 : n < 10
    · rw [if_pos h10] at hc
      simp only [List.mem_singleton] at hc
      rw [hc]
      exact digitChar_isDigit n h10
    · have hdiv : n / 10 < fuel := by
        have hlt : n / 10 < n := Nat.div_lt_self (by omega) (by omega)
        omega
      rw [if_neg h10] at hc
      rcases List.mem_append.mp hc with hc | hc
      · exact ih (n / 10) hdiv c hc
      · simp only [List.mem_singleton] at hc
        rw [hc]
        exact digitChar_isDigit (n % 10) (Nat.mod_lt _ (by omega))

theorem natToChars_digits (n : Nat) :
    ∀ c ∈ natToChars n, c.isDigit = true :=
  natToCharsAux_digits (n + 1) n (by omega)

theorem natToChars_ne_nil (n : Nat) : natToChars n ≠ [] := by
  rw [natToChars, natToCharsAux]
  by_cases h10 : n < 10 <;> simp [h10]

theorem matchCustomBlock_name (F : Str) (i : Nat) (b : SfcCustomBlock)
    (hT1 : b.type ≠ []) (hT2 : '_' ∉ b.type)
    (hL1 : b.lang ≠ []) (hL2 : '.' ∉ b.lang)
    (hF : ∀ c ∈ F, lineTermB c = false) :
    matchCustomBlock (customBlockName F i b) = some i := by
  have hMsplit : customBlockMarker = ".customBlock".toList ++ ['_'] := rfl
  have hN : customBlockName F i b =
      ((F ++ customBlockMarker) ++ b.type) ++ '_' :: natToChars i
        ++ '.' :: b.lang := rfl
  rw [hN]
  simp only [matchCustomBlock]
  have hLdot : ∀ y ∈ b.lang, (fun c => !(c == '.')) y = true := by
    intro y hy
    have hne : y ≠ '.' := fun hx => hL2 (hx ▸ hy)
    simp [hne]
  rw [suffixWhile_append (fun c => !(c == '.'))
    (((F ++ customBlockMarker) ++ b.type) ++ '_' :: natToChars i) '.' b.lang
    hLdot (by simp)]
  rw [if_neg (by simp only [List.length_append, List.length_cons]; omega)]
  rw [if_neg hL1]
  have hpre : ((((F ++ customBlockMarker) ++ b.type) ++ '_' :: natToChars i)
        ++ '.' :: b.lang).take
      (((((F ++ customBlockMarker) ++ b.type) ++ '_' :: natToChars i)
        ++ '.' :: b.lang).length - b.lang.length - 1) =
      ((F ++ customBlockMarker) ++ b.type) ++ '_' :: natToChars i := by
    exact List.take_left' (by simp only [List.length_append, List.length_cons]; omega)
  rw [hpre]
  rw [suffixWhile_append Char.isDigit ((F ++ customBlockMarker) ++ b.type) '_'
    (natToChars i) (natToChars_digits i) (by decide)]
  rw [if_neg (natToChars_ne_nil i)]
  have hrest : (((F ++ customBlockMarker) ++ b.type) ++ '_' :: natToChars i).take
      ((((F ++ customBlockMarker) ++ b.type) ++ '_' :: natToChars i).length -
        (natToChars i).length) =
      ((F ++ customBlockMarker) ++ b.type) ++ ['_'] := by
    rw [show ((F ++ customBlockMarker) ++ b.type) ++ '_' :: natToChars i =
      (((F ++ customBlockMarker) ++ b.type) ++ ['_']) ++ natToChars i from by
        simp]
    exact List.take_left' (by simp only [List.length_append, List.length_cons]; omega)
  rw [hrest]
  rw [if_pos (List.getLast?_concat _)]
  rw [List.dropLast_concat]
  have hQform : (F ++ customBlockMarker) ++ b.type =
      (F ++ ".customBlock".toList) ++ '_' :: b.type := by
    rw [hMsplit]
    simp [List.append_assoc]
  rw [hQform]
  have hTus : ∀ y ∈ b.type, (fun c => !(c == '_')) y = true := by
    intro y hy
    have hne : y ≠ '_' := fun hx => hT2 (hx ▸ hy)
    simp [hne]
  rw [suffixWhile_append (fun c => !(c == '_')) (F ++ ".customBlock".toList)
    '_' b.type hTus (by simp)]
  rw [if_neg hT1]
  have hhead : ((F ++ ".customBlock".toList) ++ '_' :: b.type).take
      (((F ++ ".customBlock".toList) ++ '_' :: b.type).length -
        b.type.length) = F ++ customBlockMarker := by
    rw [show (F ++ ".customBlock".toList) ++ '_' :: b.type =
      (F ++ customBlockMarker) ++ b.type from hQform.symm]
    rw [show (F ++ customBlockMarker) ++ b.type =
      (F ++ customBlockMarker) ++ b.type from rfl]
    exact List.take_left' (by simp only [List.length_append, List.length_cons, hMsplit]; omega)
  rw [hhead]
  rw [if_pos ?hcond]
  · rw [charsToNat_natToChars]
  · refine ⟨by simp [List.length_append], ?_, ?_⟩
    · exact List.drop_left' (by simp [List.length_append])
    · have htake : (F ++ customBlockMarker).take
          ((F ++ customBlockMarker).length - customBlockMarker.length) = F :=
        List.take_left' (by simp [List.length_append])
      rw [htake]
      exact List.all_eq_true.mpr (fun x hx => by simp [hF x hx])

theorem getEmbeddedFileNamesFrom_length (F : Str) (k : Nat)
    (bs : List SfcCustomBlock) :
    (getEmbeddedFileNamesFrom F k bs).length = bs.length := by
  induction bs generalizing k with
  | nil => rfl
  | cons b bs ih => simp [getEmbeddedFileNamesFrom, ih]

theorem getEmbeddedFileNamesFrom_get? (F : Str) (k i : Nat)
    (bs : List SfcCustomBlock) :
    (getEmbeddedFileNamesFrom F k bs).get? i =
      (bs.get? i).map (fun b => customBlockName F (k + i) b) := by
  induction bs generalizing k i with
  | nil => rfl
  | cons b bs ih =>
    cases i with
    | zero => rfl
    | succ i =>
      rw [getEmbeddedFileNamesFrom]
      show (getEmbeddedFileNamesFrom F (k + 1) bs).get? i = _
      rw [ih (k + 1) i]
      rw [show k + 1 + i = k + (i + 1) from by omega]
      rfl

/-- Claim C2 (amended): for every custom block whose type is non-empty and
free of `_` and whose language is non-empty and free of `.`, and a file
name free of line terminators, the plugin lists one embedded file name per
block — block `i` getting `fileName + '.customBlock_' + type + '_' + i +
'.' + lang` — and resolving that name appends exactly one chunk holding
the block's raw content at source offset 0 of the block's source name with
every capability flag enabled. -/
theorem customBlocks_plugin_roundTrip (F : Str) (blocks : List SfcCustomBlock)
    (i : Nat) (b : SfcCustomBlock) (hb : blocks.get? i = some b)
    (hT1 : b.type ≠ []) (hT2 : '_' ∉ b.type)
    (hL1 : b.lang ≠ []) (hL2 : '.' ∉ b.lang)
    (hF : ∀ c ∈ F, lineTermB c = false) :
    (getEmbeddedFileNames F blocks).length = blocks.length ∧
    (getEmbeddedFileNames F blocks).get? i = some (customBlockName F i b) ∧
    resolveEmbeddedFile blocks (customBlockName F i b) =
      [⟨b.content, b.name, 0, enableAllFeatures⟩] ∧
    enableAllFeatures =
      ⟨true, true, true, true, true, true⟩ := by
  refine ⟨getEmbeddedFileNamesFrom_length F 0 blocks, ?_, ?_, rfl⟩
  · rw [getEmbeddedFileNames, getEmbeddedFileNamesFrom_get? F 0 i blocks, hb]
    simp
  · rw [resolveEmbeddedFile,
      matchCustomBlock_name F i b hT1 hT2 hL1 hL2 hF]
    show (match blocks.get? i with
      | some b => [(⟨b.content, b.name, 0, enableAllFeatures⟩ : EmbeddedChunk)]
      | none => []) = _
    rw [hb]

theorem customBlocks_plugin_roundTrip_witness :
    getEmbeddedFileNames ("Widget.vue".toList)
        [⟨"docs".toList, "md".toList, "hello".toList, "w".toList⟩] =
      ["Widget.vue.customBlock_docs_0.md".toList] ∧
    resolveEmbeddedFile
        [⟨"docs".toList, "md".toList, "hello".toList, "w".toList⟩]
        ("Widget.vue.customBlock_docs_0.md".toList) =
      [⟨"hello".toList, "w".toList, 0, enableAllFeatures⟩] := by
  have h := customBlocks_plugin_roundTrip ("Widget.vue".toList)
    [⟨"docs".toList, "md".toList, "hello".toList, "w".toList⟩] 0
    ⟨"docs".toList, "md".toList, "hello".toList, "w".toList⟩
    rfl (by decide) (by decide) (by decide) (by decide) (by decide)
  have h3 := h.2.2.1
  rw [show customBlockName ("Widget.vue".toList) 0
      ⟨"docs".toList, "md".toList, "hello".toList, "w".toList⟩ =
      "Widget.vue.customBlock_docs_0.md".toList from by decide] at h3
  exact ⟨by decide, h3⟩

/-- Claim C2 counterexample: for a custom block whose type contains an
underscore (type `a_b`, language `md`, index 0), the generator lists the
name `W.vue.customBlock_a_b_0.md`, but resolving that very name appends
no chunk at all: the name pattern's `([^_]+)` group cannot match the
underscore, so the match fails. -/
theorem customBlocks_underscore_type_counterexample :
    getEmbeddedFileNames ("W.vue".toList)
        [⟨"a_b".toList, "md".toList, "hello".toList, "n".toList⟩] =
      ["W.vue.customBlock_a_b_0.md".toList] ∧
    resolveEmbeddedFile
        [⟨"a_b".toList, "md".toList, "hello".toList, "n".toList⟩]
        ("W.vue.customBlock_a_b_0.md".toList) = [] := by
  decide

/-- A concrete ts source map for the capability-gating witness. -/
def tsSourceMapW : TsSourceMap :=
  ⟨true, [⟨"x".toList, (0, 0)⟩], fun _ => [⟨(1, 2), true⟩]⟩

theorem getTsFormattingEdits_capability_gated_witness :
    (⟨"x".toList, ⟨(1, 2), true⟩⟩ : TsOutEdit).range.formatting = true :=
  (getTsFormattingEdits_capability_gated [some tsSourceMapW]
    ⟨"x".toList, ⟨(1, 2), true⟩⟩).2 (by decide)
